import Mathlib

/-!
Verification of the X11 screen-capture core of Weylus
(`src/screen_capture/linux.rs`): the `fill_yuv` BGRA → planar YUV 4:2:0
colorspace conversion, and the capture-session lifecycle
(`ScreenCaptureX11::new`, `capture`, `Drop::drop`, `size`).

The Rust code is shallowly embedded:

* byte buffers (`&[u8]`, `&mut [u8]`) become `List Nat` whose elements are
  byte values; an indexed read `data[i]` becomes `data[i]?` (so an
  out-of-bounds read, a Rust panic, becomes `none`), and an indexed write
  `y[i] = v` becomes a checked `List.set` that fails out of bounds;
* `i32` arithmetic becomes `Int` arithmetic (all intermediate values in
  `fill_yuv` are far below 2^31 for byte inputs, so no wrap occurs);
  the arithmetic shift `>>` of Rust `i32` is floor division by a power of
  two, here `asr`, and the narrowing cast `as u8` keeps the low 8 bits,
  here `toU8`;
* the fallible conversion is an `Option`-returning function: `none` means
  the Rust code would have panicked on a slice index.

The external C primitives (`start_capture`, `capture_sceen`,
`stop_capture`) and the fltk UI lock live outside the Rust source; they
are modelled from the spec as explicit outcome parameters, and the locking
behaviour of the Rust wrappers is modelled as event traces.
-/

/-- Arithmetic shift right of an `i32` value by `n` bits: floor division by
`2 ^ n` (Rust `>>` on a signed integer). -/
def asr (x : Int) (n : Nat) : Int := x / 2 ^ n

/-- The Rust narrowing cast `as u8` from `i32`: the low 8 bits, i.e. the
value modulo 256 (Euclidean remainder, always in `0..=255`). -/
def toU8 (x : Int) : Nat := (x % 256).toNat

/-- `CImage` from `linux.rs`: the frame descriptor filled in by the C
side.  The raw pointer plus `size() = width * height * 4` slice view is
modelled as the list `data` of the bytes of that slice (`CImage::new()`
has a null pointer and zero dimensions, modelled as the empty list). -/
structure CImage where
  data : List Nat
  width : Nat
  height : Nat
deriving Repr, DecidableEq

/-- `CImage::new()`: null data pointer, width 0, height 0. -/
def CImage.new : CImage := ⟨[], 0, 0⟩

/-- The byte of the source slice at offset `i`, as the `i32` the Rust code
computes with (`data[i] as i32`); the default 0 is only ever used out of
bounds, where the checked model has already failed. -/
def srcByte (data : List Nat) (i : Nat) : Int := ((data[i]?.getD 0 : Nat) : Int)

/-- A checked write `l[i] = x`: fails (Rust panic) when `i` is out of
bounds. -/
def writeByte (l : List Nat) (i : Nat) (x : Nat) : Option (List Nat) :=
  if i < l.length then some (l.set i x) else none

/-- The three colour bytes of the packed pixel starting at offset `i`:
`b = data[i]`, `g = data[i+1]`, `r = data[i+2]` (alpha at `i+3` is never
read).  Fails when any of the three reads is out of bounds. -/
def readPix (data : List Nat) (i : Nat) : Option (Int × Int × Int) :=
  (data[i]?).bind fun (b : Nat) =>
    (data[i + 1]?).bind fun (g : Nat) =>
      (data[i + 2]?).map fun (r : Nat) => ((b : Int), (g : Int), (r : Int))

/-- The luma formula of `fill_yuv`:
`((66*r + 129*g + 25*b + 128) >> 8) + 16`. -/
def lumaVal (b g r : Int) : Int := asr (66 * r + 129 * g + 25 * b + 128) 8 + 16

/-- The U (Cb) formula of `fill_yuv`:
`((128 + 112*b - 38*r - 74*g) >> 8) + 128` on the block averages. -/
def uVal (b g r : Int) : Int := asr (128 + 112 * b - 38 * r - 74 * g) 8 + 128

/-- The V (Cr) formula of `fill_yuv`:
`((128 + 112*r - 94*g - 18*b) >> 8) + 128` on the block averages. -/
def vVal (b g r : Int) : Int := asr (128 + 112 * r - 94 * g - 18 * b) 8 + 128

/-- The byte the luma loop body stores for pixel `(xx, yy)`:
`(((66*r + 129*g + 25*b + 128) >> 8) + 16) as u8` with `b, g, r` read at
source offset `i = 4 * (width * yy + xx)`. -/
def lumaOut (data : List Nat) (width yy xx : Nat) : Nat :=
  toU8 (lumaVal (srcByte data (4 * (width * yy + xx)))
                (srcByte data (4 * (width * yy + xx) + 1))
                (srcByte data (4 * (width * yy + xx) + 2)))

/-- One iteration of the luma inner loop: read `b, g, r` at
`i = 4 * (width * yy + xx)` and store the luma byte at
`y[y_line_size * yy + xx]`. -/
def lumaStep (data : List Nat) (width yls yy xx : Nat) (y : List Nat) :
    Option (List Nat) :=
  (readPix data (4 * (width * yy + xx))).bind fun bgr =>
    writeByte y (yls * yy + xx) (toU8 (lumaVal bgr.1 bgr.2.1 bgr.2.2))

/-- The luma inner loop `for xx in 0..width - width % 2`, running `n` more
iterations starting at column `xx`. -/
def lumaRow (data : List Nat) (width yls yy : Nat) :
    Nat → Nat → List Nat → Option (List Nat)
  | _, 0, y => some y
  | xx, n + 1, y =>
    (lumaStep data width yls yy xx y).bind (lumaRow data width yls yy (xx + 1) n)

/-- The luma outer loop `for yy in 0..height - height % 2`, running `n`
more rows starting at row `yy`, each row spanning `wEff` columns. -/
def lumaRows (data : List Nat) (width yls wEff : Nat) :
    Nat → Nat → List Nat → Option (List Nat)
  | _, 0, y => some y
  | yy, n + 1, y =>
    (lumaRow data width yls yy 0 wEff y).bind
      (lumaRows data width yls wEff (yy + 1) n)

/-- The blue sum of `fill_yuv`'s chroma body over the 2×2 source block of
iteration `(xx, yy)`: `data[i] + data[i+4] + data[i+y_len] +
data[i+4+y_len]` with `i = 8 * (yy * width + xx)` and
`y_len = 4 * width` (one source row). -/
def blockB (data : List Nat) (width yy xx : Nat) : Int :=
  srcByte data (8 * (yy * width + xx))
    + srcByte data (8 * (yy * width + xx) + 4)
    + srcByte data (8 * (yy * width + xx) + 4 * width)
    + srcByte data (8 * (yy * width + xx) + 4 + 4 * width)

/-- The green sum over the 2×2 block: same offsets shifted by 1. -/
def blockG (data : List Nat) (width yy xx : Nat) : Int :=
  srcByte data (8 * (yy * width + xx) + 1)
    + srcByte data (8 * (yy * width + xx) + 4 + 1)
    + srcByte data (8 * (yy * width + xx) + 4 * width + 1)
    + srcByte data (8 * (yy * width + xx) + 4 + 4 * width + 1)

/-- The red sum over the 2×2 block: same offsets shifted by 2. -/
def blockR (data : List Nat) (width yy xx : Nat) : Int :=
  srcByte data (8 * (yy * width + xx) + 2)
    + srcByte data (8 * (yy * width + xx) + 4 + 2)
    + srcByte data (8 * (yy * width + xx) + 4 * width + 2)
    + srcByte data (8 * (yy * width + xx) + 4 + 4 * width + 2)

/-- The byte the chroma loop stores into the U plane for block
`(xx, yy)`: the U formula on the `>> 2` averages of the block sums, cast
`as u8`. -/
def uOut (data : List Nat) (width yy xx : Nat) : Nat :=
  toU8 (uVal (asr (blockB data width yy xx) 2)
             (asr (blockG data width yy xx) 2)
             (asr (blockR data width yy xx) 2))

/-- The byte the chroma loop stores into the V plane for block
`(xx, yy)`. -/
def vOut (data : List Nat) (width yy xx : Nat) : Nat :=
  toU8 (vVal (asr (blockB data width yy xx) 2)
             (asr (blockG data width yy xx) 2)
             (asr (blockR data width yy xx) 2))

/-- One iteration of the chroma loop body: sum `b`, `g`, `r` over the 2×2
block at `i = 8 * (yy * width + xx)` (the two pixels at `i` and `i + 4`,
and the two `y_len = 4 * width` bytes further, i.e. one source row down),
average with `>>= 2`, and store the U and V bytes at
`u[yy * u_line_size + xx]` and `v[yy * v_line_size + xx]`. -/
def chromaStep (data : List Nat) (width uls vls yy xx : Nat)
    (u v : List Nat) : Option (List Nat × List Nat) :=
  let i := 8 * (yy * width + xx)
  let yLen := 4 * width
  (readPix data i).bind fun p0 =>
    (readPix data (i + 4)).bind fun p1 =>
      (readPix data (i + yLen)).bind fun p2 =>
        (readPix data (i + 4 + yLen)).bind fun p3 =>
          let b := asr (p0.1 + p1.1 + p2.1 + p3.1) 2
          let g := asr (p0.2.1 + p1.2.1 + p2.2.1 + p3.2.1) 2
          let r := asr (p0.2.2 + p1.2.2 + p2.2.2 + p3.2.2) 2
          (writeByte u (yy * uls + xx) (toU8 (uVal b g r))).bind fun u' =>
            (writeByte v (yy * vls + xx) (toU8 (vVal b g r))).map fun v' =>
              (u', v')

/-- The chroma inner loop `for xx in 0..width / 2`, running `n` more
iterations starting at column `xx`. -/
def chromaRow (data : List Nat) (width uls vls yy : Nat) :
    Nat → Nat → List Nat → List Nat → Option (List Nat × List Nat)
  | _, 0, u, v => some (u, v)
  | xx, n + 1, u, v =>
    (chromaStep data width uls vls yy xx u v).bind fun uv =>
      chromaRow data width uls vls yy (xx + 1) n uv.1 uv.2

/-- The chroma outer loop `for yy in 0..height / 2`. -/
def chromaRows (data : List Nat) (width uls vls wHalf : Nat) :
    Nat → Nat → List Nat → List Nat → Option (List Nat × List Nat)
  | _, 0, u, v => some (u, v)
  | yy, n + 1, u, v =>
    (chromaRow data width uls vls yy 0 wHalf u v).bind fun uv =>
      chromaRows data width uls vls wHalf (yy + 1) n uv.1 uv.2

/-- `ScreenCaptureX11::fill_yuv`: the luma loops over the even-truncated
`width - width % 2` by `height - height % 2` region, then the chroma
loops over the `width / 2` by `height / 2` grid.  Returns the final
`(y, u, v)` planes, or `none` where the Rust code would panic on an
out-of-bounds slice index. -/
def fill_yuv (img : CImage) (y u v : List Nat) (yls uls vls : Nat) :
    Option (List Nat × List Nat × List Nat) :=
  (lumaRows img.data img.width yls (img.width - img.width % 2) 0
      (img.height - img.height % 2) y).bind fun y' =>
    (chromaRows img.data img.width uls vls (img.width / 2) 0
        (img.height / 2) u v).map fun uv => (y', uv.1, uv.2)

/-! ## The capture-session lifecycle

`start_capture`, `capture_sceen` and `stop_capture` are implemented in C
outside the Rust source; each takes an error-slot out-parameter.  Their
behaviour is a parameter of the model (an explicit outcome argument), and
the Rust wrappers' locking behaviour is recorded as a trace of events. -/

/-- `CError`: the structured error slot of the C interface.  Only the
"is error" flag matters to the Rust code under verification
(`CError::is_err`); the descriptive payload is irrelevant here. -/
structure CError where
  isErr : Bool
deriving Repr, DecidableEq

/-- `CError::new()`: an empty ("no error") slot. -/
def CError.new : CError := ⟨false⟩

/-- The observable events of one execution: acquiring/releasing the
process-wide fltk UI lock (`fltk::app::lock` / `unlock`), the three
external native calls, and CPU-bound colorspace-conversion work. -/
inductive Event where
  | lockAcquire
  | lockRelease
  | callStart
  | callCapture
  | callStop
  | convert
deriving Repr, DecidableEq

/-- Modelled from the spec: the result of one invocation of the external
`start` primitive (`start_capture`, implemented in C outside `src/`) —
the native handle it returns, and the state of the error slot after the
call. -/
structure StartResult where
  handle : Nat
  err : CError
deriving Repr, DecidableEq

/-- Modelled from the spec: the outcome of one invocation of the external
`capture` primitive (`capture_sceen`, implemented in C outside `src/`):
either a freshly captured frame or a failure. -/
inductive CaptureOutcome where
  | success (img : CImage)
  | failure
deriving Repr, DecidableEq

/-- Modelled from the spec: the external `capture` primitive
(`capture_sceen`).  Per §4.1 of the spec, on success the frame descriptor
is filled in place with the fresh image and the error slot stays clear;
on failure the previous FrameBuffer is left untouched and the error slot
is set. -/
def capture_sceen (img : CImage) (outcome : CaptureOutcome) :
    CImage × CError :=
  match outcome with
  | .success img' => (img', CError.new)
  | .failure => (img, ⟨true⟩)

/-- `ScreenCaptureX11` from `linux.rs`: the native handle (opaque, a
number here), the current frame descriptor, and the cursor flag. -/
structure ScreenCaptureX11 where
  handle : Nat
  img : CImage
  capture_cursor : Bool
deriving Repr, DecidableEq

/-- `ScreenCaptureX11::new`: lock, `start_capture`, unlock; if the error
slot is set, return `Err(err)`; otherwise return a session wrapping the
handle with `CImage::new()` as its frame.  The second component is the
event trace of the call. -/
def ScreenCaptureX11.new (res : StartResult) (capture_cursor : Bool) :
    Except CError ScreenCaptureX11 × List Event :=
  let trace := [Event.lockAcquire, Event.callStart, Event.lockRelease]
  if res.err.isErr then (Except.error res.err, trace)
  else (Except.ok ⟨res.handle, CImage.new, capture_cursor⟩, trace)

/-- `ScreenCapture::capture for ScreenCaptureX11`: lock, `capture_sceen`
on the session's own `img` slot, unlock, then log a warning (and nothing
else) when the error slot is set.  Returns the updated session, the event
trace, and the list of emitted log messages — there is no error in the
return type, exactly as in the Rust signature `fn capture(&mut self)`. -/
def ScreenCaptureX11.capture (s : ScreenCaptureX11)
    (outcome : CaptureOutcome) :
    ScreenCaptureX11 × List Event × List String :=
  let r := capture_sceen s.img outcome
  ({ s with img := r.1 },
   [Event.lockAcquire, Event.callCapture, Event.lockRelease],
   if r.2.isErr then ["Failed to capture screen"] else [])

/-- `Drop for ScreenCaptureX11`: lock, `stop_capture`, unlock; any error
is swallowed.  Only the event trace is observable. -/
def ScreenCaptureX11.drop (_s : ScreenCaptureX11) : List Event :=
  [Event.lockAcquire, Event.callStop, Event.lockRelease]

/-- `ScreenCapture::size for ScreenCaptureX11`: the current frame's
dimensions. -/
def ScreenCaptureX11.size (s : ScreenCaptureX11) : Nat × Nat :=
  (s.img.width, s.img.height)

/-- One client-visible operation of an execution, with its inputs (the
session and primitive outcome it runs against). -/
inductive OpCall where
  | opNew (res : StartResult) (c : Bool)
  | opCapture (s : ScreenCaptureX11) (o : CaptureOutcome)
  | opDrop (s : ScreenCaptureX11)
  | opFillYuv

/-- The event trace of one operation.  The traces of `new`, `capture` and
`drop` are the ones their definitions produce; `fill_yuv` is pure
CPU-bound conversion work and touches no lock, so its trace is a single
`convert` event. -/
def opEvents : OpCall → List Event
  | .opNew res c => (ScreenCaptureX11.new res c).2
  | .opCapture s o => (s.capture o).2.1
  | .opDrop s => s.drop
  | .opFillYuv => [Event.convert]

/-- The event trace of a whole execution: the operations' traces in
order. -/
def execTrace (ops : List OpCall) : List Event := (ops.map opEvents).flatten

/-- Whether an event is an invocation of one of the three external
capture primitives. -/
def isPrim : Event → Bool
  | .callStart => true
  | .callCapture => true
  | .callStop => true
  | _ => false

/-- Traces in which every external-primitive invocation is immediately
bracketed by one lock acquisition and one lock release, and conversion
work happens only outside such brackets. -/
inductive BracketedTrace : List Event → Prop where
  | nil : BracketedTrace []
  | prim (p : Event) (hp : isPrim p = true) (t : List Event)
      (ht : BracketedTrace t) :
      BracketedTrace (Event.lockAcquire :: p :: Event.lockRelease :: t)
  | conv (t : List Event) (ht : BracketedTrace t) :
      BracketedTrace (Event.convert :: t)

/-!  ## Theorems  -/

-- Sanity checks of the embedding on concrete frames.
example : (-9562 : Int) / 256 = -38 := by decide
example : asr (-9562) 8 = -38 := by decide
example : toU8 (lumaVal 0 0 0) = 16 := by decide
example : toU8 (lumaVal 255 255 255) = 235 := by decide
example :
    fill_yuv ⟨List.replicate 16 0, 2, 2⟩ [9, 9, 9, 9] [9] [9] 2 1 1 =
      some ([16, 16, 16, 16], [128], [128]) := by decide

/-- A checked write succeeds exactly on an in-bounds index, and then it is
`List.set`. -/
theorem writeByte_eq_some_iff {l : List Nat} {i x : Nat} {l' : List Nat} :
    writeByte l i x = some l' ↔ i < l.length ∧ l' = l.set i x := by
  unfold writeByte
  split <;> rename_i h
  · simp [h, eq_comm]
  · simp [h]

/-- Reading a pixel succeeds exactly when its red byte (the highest of
the three offsets) is in bounds, and then it yields the three source
bytes. -/
theorem readPix_eq_some_iff {data : List Nat} {i : Nat}
    {t : Int × Int × Int} :
    readPix data i = some t ↔
      i + 2 < data.length ∧
        t = (srcByte data i, srcByte data (i + 1), srcByte data (i + 2)) := by
  constructor
  · intro h
    unfold readPix at h
    rw [Option.bind_eq_some] at h
    obtain ⟨b, hb, h⟩ := h
    rw [Option.bind_eq_some] at h
    obtain ⟨g, hg, h⟩ := h
    rw [Option.map_eq_some'] at h
    obtain ⟨r, hr, h⟩ := h
    have hl : i + 2 < data.length := (List.getElem?_eq_some_iff.mp hr).1
    refine ⟨hl, ?_⟩
    rw [← h]
    simp [srcByte, hb, hg, hr]
  · rintro ⟨hlen, rfl⟩
    have h0 : i < data.length := by omega
    have h1 : i + 1 < data.length := by omega
    unfold readPix
    rw [List.getElem?_eq_getElem h0, List.getElem?_eq_getElem h1,
        List.getElem?_eq_getElem hlen]
    simp [srcByte, List.getElem?_eq_getElem, h0, h1, hlen]

/-- One luma iteration succeeds exactly when its reads and its write are
in bounds, and then it sets the luma byte `lumaOut` at
`y[y_line_size * yy + xx]`. -/
theorem lumaStep_eq_some_iff {data : List Nat} {width yls yy xx : Nat}
    {y y' : List Nat} :
    lumaStep data width yls yy xx y = some y' ↔
      4 * (width * yy + xx) + 2 < data.length ∧
      yls * yy + xx < y.length ∧
      y' = y.set (yls * yy + xx) (lumaOut data width yy xx) := by
  unfold lumaStep
  rw [Option.bind_eq_some]
  constructor
  · rintro ⟨bgr, hb, hw⟩
    obtain ⟨hlen, rfl⟩ := readPix_eq_some_iff.mp hb
    obtain ⟨hwl, rfl⟩ := writeByte_eq_some_iff.mp hw
    exact ⟨hlen, hwl, rfl⟩
  · rintro ⟨hlen, hwl, rfl⟩
    exact ⟨_, readPix_eq_some_iff.mpr ⟨hlen, rfl⟩,
      writeByte_eq_some_iff.mpr ⟨hwl, rfl⟩⟩

/-- One chroma iteration succeeds exactly when its highest read offset
and its two writes are in bounds, and then it sets `uOut` and `vOut` at
`u[yy * u_line_size + xx]` and `v[yy * v_line_size + xx]`. -/
theorem chromaStep_eq_some_iff {data : List Nat} {width uls vls yy xx : Nat}
    {u v u' v' : List Nat} :
    chromaStep data width uls vls yy xx u v = some (u', v') ↔
      8 * (yy * width + xx) + 4 + 4 * width + 2 < data.length ∧
      yy * uls + xx < u.length ∧ yy * vls + xx < v.length ∧
      u' = u.set (yy * uls + xx) (uOut data width yy xx) ∧
      v' = v.set (yy * vls + xx) (vOut data width yy xx) := by
  unfold chromaStep
  simp only [Option.bind_eq_some, Option.map_eq_some']
  constructor
  · rintro ⟨p0, hp0, p1, hp1, p2, hp2, p3, hp3, u₁, hu, v₁, hv, heq⟩
    obtain ⟨h0, rfl⟩ := readPix_eq_some_iff.mp hp0
    obtain ⟨h1, rfl⟩ := readPix_eq_some_iff.mp hp1
    obtain ⟨h2, rfl⟩ := readPix_eq_some_iff.mp hp2
    obtain ⟨h3, rfl⟩ := readPix_eq_some_iff.mp hp3
    obtain ⟨hul, rfl⟩ := writeByte_eq_some_iff.mp hu
    obtain ⟨hvl, rfl⟩ := writeByte_eq_some_iff.mp hv
    rw [Prod.mk.injEq] at heq
    obtain ⟨rfl, rfl⟩ := heq
    exact ⟨h3, hul, hvl, rfl, rfl⟩
  · rintro ⟨hlen, hul, hvl, rfl, rfl⟩
    exact ⟨_, readPix_eq_some_iff.mpr ⟨by omega, rfl⟩,
      _, readPix_eq_some_iff.mpr ⟨by omega, rfl⟩,
      _, readPix_eq_some_iff.mpr ⟨by omega, rfl⟩,
      _, readPix_eq_some_iff.mpr ⟨by omega, rfl⟩,
      _, writeByte_eq_some_iff.mpr ⟨hul, rfl⟩,
      _, writeByte_eq_some_iff.mpr ⟨hvl, rfl⟩, rfl⟩

/-- The luma inner loop preserves the plane's length. -/
theorem lumaRow_length {data : List Nat} {width yls yy : Nat} :
    ∀ {n xx : Nat} {y y' : List Nat},
      lumaRow data width yls yy xx n y = some y' → y'.length = y.length := by
  intro n
  induction n with
  | zero =>
    intro xx y y' h
    simp only [lumaRow] at h
    cases h
    rfl
  | succ n ih =>
    intro xx y y' h
    simp only [lumaRow, Option.bind_eq_some] at h
    obtain ⟨y₁, hs, h⟩ := h
    obtain ⟨-, -, rfl⟩ := lumaStep_eq_some_iff.mp hs
    rw [ih h, List.length_set]

/-- The luma inner loop does not touch indices outside its own row
segment. -/
theorem lumaRow_getElem?_of_ne {data : List Nat} {width yls yy : Nat} :
    ∀ {n xx : Nat} {y y' : List Nat},
      lumaRow data width yls yy xx n y = some y' →
      ∀ j : Nat, (∀ x, xx ≤ x → x < xx + n → j ≠ yls * yy + x) →
      y'[j]? = y[j]? := by
  intro n
  induction n with
  | zero =>
    intro xx y y' h j _
    simp only [lumaRow] at h
    cases h
    rfl
  | succ n ih =>
    intro xx y y' h j hj
    simp only [lumaRow, Option.bind_eq_some] at h
    obtain ⟨y₁, hs, h⟩ := h
    obtain ⟨-, -, rfl⟩ := lumaStep_eq_some_iff.mp hs
    rw [ih h j (fun x h1 h2 => hj x (by omega) (by omega))]
    exact List.getElem?_set_ne (Ne.symm (hj xx (le_refl xx) (by omega)))

/-- Each column of the luma inner loop's segment holds `lumaOut` when the
loop finishes. -/
theorem lumaRow_getElem?_written {data : List Nat} {width yls yy : Nat} :
    ∀ {n xx : Nat} {y y' : List Nat},
      lumaRow data width yls yy xx n y = some y' →
      ∀ x : Nat, xx ≤ x → x < xx + n →
      y'[yls * yy + x]? = some (lumaOut data width yy x) := by
  intro n
  induction n with
  | zero => intro xx y y' _ x _ h2; omega
  | succ n ih =>
    intro xx y y' h x hx1 hx2
    simp only [lumaRow, Option.bind_eq_some] at h
    obtain ⟨y₁, hs, h⟩ := h
    obtain ⟨-, hwl, rfl⟩ := lumaStep_eq_some_iff.mp hs
    rcases Nat.eq_or_lt_of_le hx1 with heq | hlt
    · subst heq
      rw [lumaRow_getElem?_of_ne h (yls * yy + xx)
        (fun x' h1 h2 => by omega)]
      exact List.getElem?_set_self hwl
    · exact ih h x (by omega) (by omega)

/-- The luma inner loop succeeds when every read and write of its segment
is in bounds. -/
theorem lumaRow_isSome {data : List Nat} {width yls yy : Nat} :
    ∀ {n xx : Nat} {y : List Nat},
      (∀ x, xx ≤ x → x < xx + n →
        4 * (width * yy + x) + 2 < data.length ∧ yls * yy + x < y.length) →
      ∃ y', lumaRow data width yls yy xx n y = some y' := by
  intro n
  induction n with
  | zero => intro xx y _; exact ⟨y, by simp [lumaRow]⟩
  | succ n ih =>
    intro xx y hb
    obtain ⟨h1, h2⟩ := hb xx (le_refl xx) (by omega)
    obtain ⟨y', hrest⟩ :=
      @ih (xx + 1) (y.set (yls * yy + xx) (lumaOut data width yy xx))
        (fun x hx1 hx2 => by
          obtain ⟨a, b⟩ := hb x (by omega) (by omega)
          exact ⟨a, by rwa [List.length_set]⟩)
    refine ⟨y', ?_⟩
    simp only [lumaRow, Option.bind_eq_some]
    exact ⟨_, lumaStep_eq_some_iff.mpr ⟨h1, h2, rfl⟩, hrest⟩

/-- The luma outer loop preserves the plane's length. -/
theorem lumaRows_length {data : List Nat} {width yls wEff : Nat} :
    ∀ {n yy : Nat} {y y' : List Nat},
      lumaRows data width yls wEff yy n y = some y' →
      y'.length = y.length := by
  intro n
  induction n with
  | zero =>
    intro yy y y' h
    simp only [lumaRows] at h
    cases h
    rfl
  | succ n ih =>
    intro yy y y' h
    simp only [lumaRows, Option.bind_eq_some] at h
    obtain ⟨y₁, hr, h⟩ := h
    rw [ih h, lumaRow_length hr]

/-- The luma loops do not touch indices outside the written region
`{y_line_size * r + x | r < rows, x < wEff}`. -/
theorem lumaRows_getElem?_of_ne {data : List Nat} {width yls wEff : Nat} :
    ∀ {n yy : Nat} {y y' : List Nat},
      lumaRows data width yls wEff yy n y = some y' →
      ∀ j : Nat,
        (∀ r x, yy ≤ r → r < yy + n → x < wEff → j ≠ yls * r + x) →
      y'[j]? = y[j]? := by
  intro n
  induction n with
  | zero =>
    intro yy y y' h j _
    simp only [lumaRows] at h
    cases h
    rfl
  | succ n ih =>
    intro yy y y' h j hj
    simp only [lumaRows, Option.bind_eq_some] at h
    obtain ⟨y₁, hr, h⟩ := h
    rw [ih h j (fun r x h1 h2 hx => hj r x (by omega) (by omega) hx),
      lumaRow_getElem?_of_ne hr j
        (fun x h1 h2 => hj yy x (le_refl yy) (by omega) (by omega))]

/-- When the stride is at least the effective width, each luma sample of
the written region holds `lumaOut` when the loops finish. -/
theorem lumaRows_getElem?_written {data : List Nat} {width yls wEff : Nat}
    (hw : wEff ≤ yls) :
    ∀ {n yy : Nat} {y y' : List Nat},
      lumaRows data width yls wEff yy n y = some y' →
      ∀ r x : Nat, yy ≤ r → r < yy + n → x < wEff →
      y'[yls * r + x]? = some (lumaOut data width r x) := by
  intro n
  induction n with
  | zero => intro yy y y' _ r x _ h2 _; omega
  | succ n ih =>
    intro yy y y' h r x h1 h2 h3
    simp only [lumaRows, Option.bind_eq_some] at h
    obtain ⟨y₁, hrow, h⟩ := h
    rcases Nat.eq_or_lt_of_le h1 with heq | hlt
    · subst heq
      have hne : ∀ r' x', yy + 1 ≤ r' → r' < yy + 1 + n → x' < wEff →
          yls * yy + x ≠ yls * r' + x' := by
        intro r' x' hr1 hr2 hx'
        have hmul : yls * (yy + 1) ≤ yls * r' :=
          Nat.mul_le_mul (le_refl yls) (by omega)
        have he : yls * (yy + 1) = yls * yy + yls := by ring
        omega
      rw [lumaRows_getElem?_of_ne h (yls * yy + x) hne]
      exact lumaRow_getElem?_written hrow x (Nat.zero_le x) (by omega)
    · exact ih h r x (by omega) (by omega) h3

/-- The luma loops succeed when every read and write of the written
region is in bounds. -/
theorem lumaRows_isSome {data : List Nat} {width yls wEff : Nat} :
    ∀ {n yy : Nat} {y : List Nat},
      (∀ r x, yy ≤ r → r < yy + n → x < wEff →
        4 * (width * r + x) + 2 < data.length ∧ yls * r + x < y.length) →
      ∃ y', lumaRows data width yls wEff yy n y = some y' := by
  intro n
  induction n with
  | zero => intro yy y _; exact ⟨y, by simp [lumaRows]⟩
  | succ n ih =>
    intro yy y hb
    obtain ⟨y₁, hrow⟩ :=
      @lumaRow_isSome data width yls yy wEff 0 y
        (fun x hx1 hx2 => hb yy x (le_refl yy) (by omega) (by omega))
    obtain ⟨y', hrest⟩ :=
      @ih (yy + 1) y₁
        (fun r x h1 h2 hx => by
          obtain ⟨a, b⟩ := hb r x (by omega) (by omega) hx
          exact ⟨a, by rwa [lumaRow_length hrow]⟩)
    refine ⟨y', ?_⟩
    simp only [lumaRows, Option.bind_eq_some]
    exact ⟨y₁, hrow, hrest⟩

/-- The chroma inner loop preserves both planes' lengths. -/
theorem chromaRow_length {data : List Nat} {width uls vls yy : Nat} :
    ∀ {n xx : Nat} {u v u' v' : List Nat},
      chromaRow data width uls vls yy xx n u v = some (u', v') →
      u'.length = u.length ∧ v'.length = v.length := by
  intro n
  induction n with
  | zero =>
    intro xx u v u' v' h
    simp only [chromaRow] at h
    cases h
    exact ⟨rfl, rfl⟩
  | succ n ih =>
    intro xx u v u' v' h
    simp only [chromaRow, Option.bind_eq_some] at h
    obtain ⟨⟨u₁, v₁⟩, hs, h⟩ := h
    obtain ⟨-, -, -, rfl, rfl⟩ := chromaStep_eq_some_iff.mp hs
    obtain ⟨hu, hv⟩ := ih h
    rw [hu, hv, List.length_set, List.length_set]
    exact ⟨rfl, rfl⟩

/-- The chroma inner loop does not touch U-plane indices outside its own
row segment. -/
theorem chromaRow_getElem?_of_ne_u {data : List Nat}
    {width uls vls yy : Nat} :
    ∀ {n xx : Nat} {u v u' v' : List Nat},
      chromaRow data width uls vls yy xx n u v = some (u', v') →
      ∀ j : Nat, (∀ x, xx ≤ x → x < xx + n → j ≠ yy * uls + x) →
      u'[j]? = u[j]? := by
  intro n
  induction n with
  | zero =>
    intro xx u v u' v' h j _
    simp only [chromaRow] at h
    cases h
    rfl
  | succ n ih =>
    intro xx u v u' v' h j hj
    simp only [chromaRow, Option.bind_eq_some] at h
    obtain ⟨⟨u₁, v₁⟩, hs, h⟩ := h
    obtain ⟨-, -, -, rfl, rfl⟩ := chromaStep_eq_some_iff.mp hs
    rw [ih h j (fun x h1 h2 => hj x (by omega) (by omega))]
    exact List.getElem?_set_ne (Ne.symm (hj xx (le_refl xx) (by omega)))

/-- The chroma inner loop does not touch V-plane indices outside its own
row segment. -/
theorem chromaRow_getElem?_of_ne_v {data : List Nat}
    {width uls vls yy : Nat} :
    ∀ {n xx : Nat} {u v u' v' : List Nat},
      chromaRow data width uls vls yy xx n u v = some (u', v') →
      ∀ j : Nat, (∀ x, xx ≤ x → x < xx + n → j ≠ yy * vls + x) →
      v'[j]? = v[j]? := by
  intro n
  induction n with
  | zero =>
    intro xx u v u' v' h j _
    simp only [chromaRow] at h
    cases h
    rfl
  | succ n ih =>
    intro xx u v u' v' h j hj
    simp only [chromaRow, Option.bind_eq_some] at h
    obtain ⟨⟨u₁, v₁⟩, hs, h⟩ := h
    obtain ⟨-, -, -, rfl, rfl⟩ := chromaStep_eq_some_iff.mp hs
    rw [ih h j (fun x h1 h2 => hj x (by omega) (by omega))]
    exact List.getElem?_set_ne (Ne.symm (hj xx (le_refl xx) (by omega)))

/-- Each column of the chroma inner loop's segment holds `uOut` (U plane)
when the loop finishes. -/
theorem chromaRow_getElem?_written_u {data : List Nat}
    {width uls vls yy : Nat} :
    ∀ {n xx : Nat} {u v u' v' : List Nat},
      chromaRow data width uls vls yy xx n u v = some (u', v') →
      ∀ x : Nat, xx ≤ x → x < xx + n →
      u'[yy * uls + x]? = some (uOut data width yy x) := by
  intro n
  induction n with
  | zero => intro xx u v u' v' _ x _ h2; omega
  | succ n ih =>
    intro xx u v u' v' h x hx1 hx2
    simp only [chromaRow, Option.bind_eq_some] at h
    obtain ⟨⟨u₁, v₁⟩, hs, h⟩ := h
    obtain ⟨-, hul, -, rfl, rfl⟩ := chromaStep_eq_some_iff.mp hs
    rcases Nat.eq_or_lt_of_le hx1 with heq | hlt
    · subst heq
      rw [chromaRow_getElem?_of_ne_u h (yy * uls + xx)
        (fun x' h1 h2 => by omega)]
      exact List.getElem?_set_self hul
    · exact ih h x (by omega) (by omega)

/-- Each column of the chroma inner loop's segment holds `vOut` (V plane)
when the loop finishes. -/
theorem chromaRow_getElem?_written_v {data : List Nat}
    {width uls vls yy : Nat} :
    ∀ {n xx : Nat} {u v u' v' : List Nat},
      chromaRow data width uls vls yy xx n u v = some (u', v') →
      ∀ x : Nat, xx ≤ x → x < xx + n →
      v'[yy * vls + x]? = some (vOut data width yy x) := by
  intro n
  induction n with
  | zero => intro xx u v u' v' _ x _ h2; omega
  | succ n ih =>
    intro xx u v u' v' h x hx1 hx2
    simp only [chromaRow, Option.bind_eq_some] at h
    obtain ⟨⟨u₁, v₁⟩, hs, h⟩ := h
    obtain ⟨-, -, hvl, rfl, rfl⟩ := chromaStep_eq_some_iff.mp hs
    rcases Nat.eq_or_lt_of_le hx1 with heq | hlt
    · subst heq
      rw [chromaRow_getElem?_of_ne_v h (yy * vls + xx)
        (fun x' h1 h2 => by omega)]
      exact List.getElem?_set_self hvl
    · exact ih h x (by omega) (by omega)

/-- The chroma inner loop succeeds when every read and write of its
segment is in bounds. -/
theorem chromaRow_isSome {data : List Nat} {width uls vls yy : Nat} :
    ∀ {n xx : Nat} {u v : List Nat},
      (∀ x, xx ≤ x → x < xx + n →
        8 * (yy * width + x) + 4 + 4 * width + 2 < data.length ∧
        yy * uls + x < u.length ∧ yy * vls + x < v.length) →
      ∃ u' v', chromaRow data width uls vls yy xx n u v = some (u', v') := by
  intro n
  induction n with
  | zero => intro xx u v _; exact ⟨u, v, by simp [chromaRow]⟩
  | succ n ih =>
    intro xx u v hb
    obtain ⟨h1, h2, h3⟩ := hb xx (le_refl xx) (by omega)
    obtain ⟨u', v', hrest⟩ :=
      @ih (xx + 1) (u.set (yy * uls + xx) (uOut data width yy xx))
        (v.set (yy * vls + xx) (vOut data width yy xx))
        (fun x hx1 hx2 => by
          obtain ⟨a, b, c⟩ := hb x (by omega) (by omega)
          exact ⟨a, by rwa [List.length_set], by rwa [List.length_set]⟩)
    refine ⟨u', v', ?_⟩
    simp only [chromaRow, Option.bind_eq_some]
    exact ⟨(u.set (yy * uls + xx) (uOut data width yy xx),
            v.set (yy * vls + xx) (vOut data width yy xx)),
      chromaStep_eq_some_iff.mpr ⟨h1, h2, h3, rfl, rfl⟩, hrest⟩

/-- The chroma outer loop preserves both planes' lengths. -/
theorem chromaRows_length {data : List Nat} {width uls vls wHalf : Nat} :
    ∀ {n yy : Nat} {u v u' v' : List Nat},
      chromaRows data width uls vls wHalf yy n u v = some (u', v') →
      u'.length = u.length ∧ v'.length = v.length := by
  intro n
  induction n with
  | zero =>
    intro yy u v u' v' h
    simp only [chromaRows] at h
    cases h
    exact ⟨rfl, rfl⟩
  | succ n ih =>
    intro yy u v u' v' h
    simp only [chromaRows, Option.bind_eq_some] at h
    obtain ⟨⟨u₁, v₁⟩, hr, h⟩ := h
    obtain ⟨hu1, hv1⟩ := chromaRow_length hr
    obtain ⟨hu2, hv2⟩ := ih h
    exact ⟨by rw [hu2, hu1], by rw [hv2, hv1]⟩

/-- The chroma loops do not touch U-plane indices outside the written
region `{r * u_line_size + x | r < rows, x < wHalf}`. -/
theorem chromaRows_getElem?_of_ne_u {data : List Nat}
    {width uls vls wHalf : Nat} :
    ∀ {n yy : Nat} {u v u' v' : List Nat},
      chromaRows data width uls vls wHalf yy n u v = some (u', v') →
      ∀ j : Nat,
        (∀ r x, yy ≤ r → r < yy + n → x < wHalf → j ≠ r * uls + x) →
      u'[j]? = u[j]? := by
  intro n
  induction n with
  | zero =>
    intro yy u v u' v' h j _
    simp only [chromaRows] at h
    cases h
    rfl
  | succ n ih =>
    intro yy u v u' v' h j hj
    simp only [chromaRows, Option.bind_eq_some] at h
    obtain ⟨⟨u₁, v₁⟩, hr, h⟩ := h
    rw [ih h j (fun r x h1 h2 hx => hj r x (by omega) (by omega) hx),
      chromaRow_getElem?_of_ne_u hr j
        (fun x h1 h2 => hj yy x (le_refl yy) (by omega) (by omega))]

/-- The chroma loops do not touch V-plane indices outside the written
region. -/
theorem chromaRows_getElem?_of_ne_v {data : List Nat}
    {width uls vls wHalf : Nat} :
    ∀ {n yy : Nat} {u v u' v' : List Nat},
      chromaRows data width uls vls wHalf yy n u v = some (u', v') →
      ∀ j : Nat,
        (∀ r x, yy ≤ r → r < yy + n → x < wHalf → j ≠ r * vls + x) →
      v'[j]? = v[j]? := by
  intro n
  induction n with
  | zero =>
    intro yy u v u' v' h j _
    simp only [chromaRows] at h
    cases h
    rfl
  | succ n ih =>
    intro yy u v u' v' h j hj
    simp only [chromaRows, Option.bind_eq_some] at h
    obtain ⟨⟨u₁, v₁⟩, hr, h⟩ := h
    rw [ih h j (fun r x h1 h2 hx => hj r x (by omega) (by omega) hx),
      chromaRow_getElem?_of_ne_v hr j
        (fun x h1 h2 => hj yy x (le_refl yy) (by omega) (by omega))]

/-- When the U stride is at least the half width, each U sample of the
written region holds `uOut` when the chroma loops finish. -/
theorem chromaRows_getElem?_written_u {data : List Nat}
    {width uls vls wHalf : Nat} (hw : wHalf ≤ uls) :
    ∀ {n yy : Nat} {u v u' v' : List Nat},
      chromaRows data width uls vls wHalf yy n u v = some (u', v') →
      ∀ r x : Nat, yy ≤ r → r < yy + n → x < wHalf →
      u'[r * uls + x]? = some (uOut data width r x) := by
  intro n
  induction n with
  | zero => intro yy u v u' v' _ r x _ h2 _; omega
  | succ n ih =>
    intro yy u v u' v' h r x h1 h2 h3
    simp only [chromaRows, Option.bind_eq_some] at h
    obtain ⟨⟨u₁, v₁⟩, hrow, h⟩ := h
    rcases Nat.eq_or_lt_of_le h1 with heq | hlt
    · subst heq
      have hne : ∀ r' x', yy + 1 ≤ r' → r' < yy + 1 + n → x' < wHalf →
          yy * uls + x ≠ r' * uls + x' := by
        intro r' x' hr1 hr2 hx'
        have hmul : (yy + 1) * uls ≤ r' * uls :=
          Nat.mul_le_mul (by omega) (le_refl uls)
        have he : (yy + 1) * uls = yy * uls + uls := by ring
        omega
      rw [chromaRows_getElem?_of_ne_u h (yy * uls + x) hne]
      exact chromaRow_getElem?_written_u hrow x (Nat.zero_le x) (by omega)
    · exact ih h r x (by omega) (by omega) h3

/-- When the V stride is at least the half width, each V sample of the
written region holds `vOut` when the chroma loops finish. -/
theorem chromaRows_getElem?_written_v {data : List Nat}
    {width uls vls wHalf : Nat} (hw : wHalf ≤ vls) :
    ∀ {n yy : Nat} {u v u' v' : List Nat},
      chromaRows data width uls vls wHalf yy n u v = some (u', v') →
      ∀ r x : Nat, yy ≤ r → r < yy + n → x < wHalf →
      v'[r * vls + x]? = some (vOut data width r x) := by
  intro n
  induction n with
  | zero => intro yy u v u' v' _ r x _ h2 _; omega
  | succ n ih =>
    intro yy u v u' v' h r x h1 h2 h3
    simp only [chromaRows, Option.bind_eq_some] at h
    obtain ⟨⟨u₁, v₁⟩, hrow, h⟩ := h
    rcases Nat.eq_or_lt_of_le h1 with heq | hlt
    · subst heq
      have hne : ∀ r' x', yy + 1 ≤ r' → r' < yy + 1 + n → x' < wHalf →
          yy * vls + x ≠ r' * vls + x' := by
        intro r' x' hr1 hr2 hx'
        have hmul : (yy + 1) * vls ≤ r' * vls :=
          Nat.mul_le_mul (by omega) (le_refl vls)
        have he : (yy + 1) * vls = yy * vls + vls := by ring
        omega
      rw [chromaRows_getElem?_of_ne_v h (yy * vls + x) hne]
      exact chromaRow_getElem?_written_v hrow x (Nat.zero_le x) (by omega)
    · exact ih h r x (by omega) (by omega) h3

/-- The chroma loops succeed when every read and write of the written
region is in bounds. -/
theorem chromaRows_isSome {data : List Nat} {width uls vls wHalf : Nat} :
    ∀ {n yy : Nat} {u v : List Nat},
      (∀ r x, yy ≤ r → r < yy + n → x < wHalf →
        8 * (r * width + x) + 4 + 4 * width + 2 < data.length ∧
        r * uls + x < u.length ∧ r * vls + x < v.length) →
      ∃ u' v', chromaRows data width uls vls wHalf yy n u v =
        some (u', v') := by
  intro n
  induction n with
  | zero => intro yy u v _; exact ⟨u, v, by simp [chromaRows]⟩
  | succ n ih =>
    intro yy u v hb
    obtain ⟨u₁, v₁, hrow⟩ :=
      @chromaRow_isSome data width uls vls yy wHalf 0 u v
        (fun x hx1 hx2 => hb yy x (le_refl yy) (by omega) (by omega))
    obtain ⟨hu1, hv1⟩ := chromaRow_length hrow
    obtain ⟨u', v', hrest⟩ :=
      @ih (yy + 1) u₁ v₁
        (fun r x h1 h2 hx => by
          obtain ⟨a, b, c⟩ := hb r x (by omega) (by omega) hx
          exact ⟨a, by rwa [hu1], by rwa [hv1]⟩)
    refine ⟨u', v', ?_⟩
    simp only [chromaRows, Option.bind_eq_some]
    exact ⟨(u₁, v₁), hrow, hrest⟩

/-- `fill_yuv` succeeds exactly when its luma loops and its chroma loops
both succeed, and returns their results. -/
theorem fill_yuv_eq_some_iff {img : CImage} {y u v y' u' v' : List Nat}
    {yls uls vls : Nat} :
    fill_yuv img y u v yls uls vls = some (y', u', v') ↔
      lumaRows img.data img.width yls (img.width - img.width % 2) 0
        (img.height - img.height % 2) y = some y' ∧
      chromaRows img.data img.width uls vls (img.width / 2) 0
        (img.height / 2) u v = some (u', v') := by
  unfold fill_yuv
  simp only [Option.bind_eq_some, Option.map_eq_some']
  constructor
  · rintro ⟨y₁, hy, uv, huv, heq⟩
    rw [Prod.mk.injEq, Prod.mk.injEq] at heq
    obtain ⟨rfl, rfl, rfl⟩ := heq
    exact ⟨hy, huv⟩
  · rintro ⟨hy, huv⟩
    exact ⟨y', hy, (u', v'), huv, rfl⟩

/-- Every luma read of the truncated region is inside the
`width * height * 4`-byte source. -/
theorem luma_read_bound {width height r x dlen : Nat}
    (hr : r < height - height % 2) (hx : x < width - width % 2)
    (hd : width * height * 4 ≤ dlen) :
    4 * (width * r + x) + 2 < dlen := by
  have h1 : width * (r + 1) ≤ width * height :=
    Nat.mul_le_mul (le_refl width) (by omega)
  have h2 : width * (r + 1) = width * r + width := by ring
  have h3 : width * height * 4 = 4 * (width * height) := by ring
  have hx' : x + 1 ≤ width := by omega
  omega

/-- Every chroma read of the half-resolution grid is inside the
`width * height * 4`-byte source. -/
theorem chroma_read_bound {width height r x dlen : Nat}
    (hr : r < height / 2) (hx : x < width / 2)
    (hd : width * height * 4 ≤ dlen) :
    8 * (r * width + x) + 4 + 4 * width + 2 < dlen := by
  have h1 : 2 * (r + 1) ≤ height := by omega
  have h2 : 2 * (x + 1) ≤ width := by omega
  have h3 : 2 * (r + 1) * width ≤ height * width :=
    Nat.mul_le_mul h1 (le_refl width)
  have h4 : 2 * (r + 1) * width = 2 * (r * width) + 2 * width := by ring
  have h5 : width * height * 4 = 4 * (height * width) := by ring
  omega

/-- A write at `r * s + x` with `x < roww ≤ s` lands inside a plane of
`rows` stride-`s` rows. -/
theorem write_bound_of_stride {s r x rows roww len : Nat}
    (hr : r < rows) (hx : x < roww) (hs : roww ≤ s)
    (hlen : rows * s ≤ len) : r * s + x < len := by
  have h1 : (r + 1) * s ≤ rows * s := Nat.mul_le_mul (by omega) (le_refl s)
  have h2 : (r + 1) * s = r * s + s := by ring
  omega

/-- `fill_yuv` never hits an out-of-bounds index — hence succeeds — when
the source holds the full frame and every destination sample index is in
bounds. -/
theorem fill_yuv_isSome_of_bounds {img : CImage} {y u v : List Nat}
    {yls uls vls : Nat}
    (hdata : img.width * img.height * 4 ≤ img.data.length)
    (hy : ∀ r x, r < img.height - img.height % 2 →
      x < img.width - img.width % 2 → yls * r + x < y.length)
    (hu : ∀ r x, r < img.height / 2 → x < img.width / 2 →
      r * uls + x < u.length)
    (hv : ∀ r x, r < img.height / 2 → x < img.width / 2 →
      r * vls + x < v.length) :
    ∃ y' u' v', fill_yuv img y u v yls uls vls = some (y', u', v') := by
  obtain ⟨y', hy'⟩ :=
    @lumaRows_isSome img.data img.width yls (img.width - img.width % 2)
      (img.height - img.height % 2) 0 y
      (fun r x h1 h2 hx =>
        ⟨luma_read_bound (by omega) hx hdata, hy r x (by omega) hx⟩)
  obtain ⟨u', v', huv⟩ :=
    @chromaRows_isSome img.data img.width uls vls (img.width / 2)
      (img.height / 2) 0 u v
      (fun r x h1 h2 hx =>
        ⟨chroma_read_bound (by omega) hx hdata, hu r x (by omega) hx,
          hv r x (by omega) hx⟩)
  exact ⟨y', u', v', fill_yuv_eq_some_iff.mpr ⟨hy', huv⟩⟩

/-- Source bytes are non-negative as `i32` values. -/
theorem srcByte_nonneg (data : List Nat) (i : Nat) : 0 ≤ srcByte data i :=
  Int.natCast_nonneg _

/-- Source bytes of a byte-valued frame are at most 255. -/
theorem srcByte_le (data : List Nat) (hbytes : ∀ b ∈ data, b ≤ 255)
    (i : Nat) : srcByte data i ≤ 255 := by
  unfold srcByte
  rcases h : data[i]? with _ | b
  · simp
  · have hb := hbytes b (List.getElem?_mem h)
    simp only [Option.getD_some]
    exact_mod_cast hb

/-- The cast `as u8` is lossless on `0..=255`. -/
theorem toU8_int_eq {x : Int} (h0 : 0 ≤ x) (h1 : x ≤ 255) :
    (toU8 x : Int) = x := by
  unfold toU8
  omega

/-- The block-average `>> 2` of a sum of four bytes is again a byte
value. -/
theorem avg_range {s : Int} (h0 : 0 ≤ s) (h1 : s ≤ 1020) :
    0 ≤ asr s 2 ∧ asr s 2 ≤ 255 := by
  unfold asr
  norm_num
  omega

/-- For byte inputs the luma formula stays within the limited range
`16..=235`. -/
theorem lumaVal_range {b g r : Int} (hb0 : 0 ≤ b) (hb1 : b ≤ 255)
    (hg0 : 0 ≤ g) (hg1 : g ≤ 255) (hr0 : 0 ≤ r) (hr1 : r ≤ 255) :
    16 ≤ lumaVal b g r ∧ lumaVal b g r ≤ 235 := by
  unfold lumaVal asr
  norm_num
  omega

/-- For byte inputs the U formula stays within `16..=240`. -/
theorem uVal_range {b g r : Int} (hb0 : 0 ≤ b) (hb1 : b ≤ 255)
    (hg0 : 0 ≤ g) (hg1 : g ≤ 255) (hr0 : 0 ≤ r) (hr1 : r ≤ 255) :
    16 ≤ uVal b g r ∧ uVal b g r ≤ 240 := by
  unfold uVal asr
  norm_num
  omega

/-- For byte inputs the V formula stays within `16..=240`. -/
theorem vVal_range {b g r : Int} (hb0 : 0 ≤ b) (hb1 : b ≤ 255)
    (hg0 : 0 ≤ g) (hg1 : g ≤ 255) (hr0 : 0 ≤ r) (hr1 : r ≤ 255) :
    16 ≤ vVal b g r ∧ vVal b g r ≤ 240 := by
  unfold vVal asr
  norm_num
  omega

/-- For a byte-valued frame the stored luma byte is in `16..=235` and
the narrowing cast is lossless. -/
theorem lumaOut_range (data : List Nat) (hbytes : ∀ b ∈ data, b ≤ 255)
    (width r x : Nat) :
    16 ≤ lumaOut data width r x ∧ lumaOut data width r x ≤ 235 ∧
    ((lumaOut data width r x : Int) =
      lumaVal (srcByte data (4 * (width * r + x)))
        (srcByte data (4 * (width * r + x) + 1))
        (srcByte data (4 * (width * r + x) + 2))) := by
  have h := lumaVal_range (srcByte_nonneg data (4 * (width * r + x)))
    (srcByte_le data hbytes (4 * (width * r + x)))
    (srcByte_nonneg data (4 * (width * r + x) + 1))
    (srcByte_le data hbytes (4 * (width * r + x) + 1))
    (srcByte_nonneg data (4 * (width * r + x) + 2))
    (srcByte_le data hbytes (4 * (width * r + x) + 2))
  have he : (lumaOut data width r x : Int) =
      lumaVal (srcByte data (4 * (width * r + x)))
        (srcByte data (4 * (width * r + x) + 1))
        (srcByte data (4 * (width * r + x) + 2)) :=
    toU8_int_eq (by omega) (by omega)
  refine ⟨?_, ?_, he⟩ <;> omega

/-- The four-byte block sums lie in `0..=1020` for a byte-valued
frame. -/
theorem blockB_range (data : List Nat) (hbytes : ∀ b ∈ data, b ≤ 255)
    (width r x : Nat) :
    0 ≤ blockB data width r x ∧ blockB data width r x ≤ 1020 := by
  unfold blockB
  have n1 := srcByte_nonneg data (8 * (r * width + x))
  constructor
  · have := srcByte_nonneg data (8 * (r * width + x) + 4)
    have := srcByte_nonneg data (8 * (r * width + x) + 4 * width)
    have := srcByte_nonneg data (8 * (r * width + x) + 4 + 4 * width)
    linarith
  · have := srcByte_le data hbytes (8 * (r * width + x))
    have := srcByte_le data hbytes (8 * (r * width + x) + 4)
    have := srcByte_le data hbytes (8 * (r * width + x) + 4 * width)
    have := srcByte_le data hbytes (8 * (r * width + x) + 4 + 4 * width)
    linarith

/-- Green block sums lie in `0..=1020`. -/
theorem blockG_range (data : List Nat) (hbytes : ∀ b ∈ data, b ≤ 255)
    (width r x : Nat) :
    0 ≤ blockG data width r x ∧ blockG data width r x ≤ 1020 := by
  unfold blockG
  constructor
  · have := srcByte_nonneg data (8 * (r * width + x) + 1)
    have := srcByte_nonneg data (8 * (r * width + x) + 4 + 1)
    have := srcByte_nonneg data (8 * (r * width + x) + 4 * width + 1)
    have := srcByte_nonneg data (8 * (r * width + x) + 4 + 4 * width + 1)
    linarith
  · have := srcByte_le data hbytes (8 * (r * width + x) + 1)
    have := srcByte_le data hbytes (8 * (r * width + x) + 4 + 1)
    have := srcByte_le data hbytes (8 * (r * width + x) + 4 * width + 1)
    have := srcByte_le data hbytes (8 * (r * width + x) + 4 + 4 * width + 1)
    linarith

/-- Red block sums lie in `0..=1020`. -/
theorem blockR_range (data : List Nat) (hbytes : ∀ b ∈ data, b ≤ 255)
    (width r x : Nat) :
    0 ≤ blockR data width r x ∧ blockR data width r x ≤ 1020 := by
  unfold blockR
  constructor
  · have := srcByte_nonneg data (8 * (r * width + x) + 2)
    have := srcByte_nonneg data (8 * (r * width + x) + 4 + 2)
    have := srcByte_nonneg data (8 * (r * width + x) + 4 * width + 2)
    have := srcByte_nonneg data (8 * (r * width + x) + 4 + 4 * width + 2)
    linarith
  · have := srcByte_le data hbytes (8 * (r * width + x) + 2)
    have := srcByte_le data hbytes (8 * (r * width + x) + 4 + 2)
    have := srcByte_le data hbytes (8 * (r * width + x) + 4 * width + 2)
    have := srcByte_le data hbytes (8 * (r * width + x) + 4 + 4 * width + 2)
    linarith

/-- For a byte-valued frame the stored U byte is in `16..=240` and the
narrowing cast is lossless. -/
theorem uOut_range (data : List Nat) (hbytes : ∀ b ∈ data, b ≤ 255)
    (width r x : Nat) :
    16 ≤ uOut data width r x ∧ uOut data width r x ≤ 240 ∧
    ((uOut data width r x : Int) =
      uVal (asr (blockB data width r x) 2) (asr (blockG data width r x) 2)
        (asr (blockR data width r x) 2)) := by
  obtain ⟨hb0, hb1⟩ := blockB_range data hbytes width r x
  obtain ⟨hg0, hg1⟩ := blockG_range data hbytes width r x
  obtain ⟨hr0, hr1⟩ := blockR_range data hbytes width r x
  obtain ⟨ab0, ab1⟩ := avg_range hb0 hb1
  obtain ⟨ag0, ag1⟩ := avg_range hg0 hg1
  obtain ⟨ar0, ar1⟩ := avg_range hr0 hr1
  have h := uVal_range ab0 ab1 ag0 ag1 ar0 ar1
  have he : (uOut data width r x : Int) =
      uVal (asr (blockB data width r x) 2) (asr (blockG data width r x) 2)
        (asr (blockR data width r x) 2) :=
    toU8_int_eq (by omega) (by omega)
  refine ⟨?_, ?_, he⟩ <;> omega

/-- For a byte-valued frame the stored V byte is in `16..=240` and the
narrowing cast is lossless. -/
theorem vOut_range (data : List Nat) (hbytes : ∀ b ∈ data, b ≤ 255)
    (width r x : Nat) :
    16 ≤ vOut data width r x ∧ vOut data width r x ≤ 240 ∧
    ((vOut data width r x : Int) =
      vVal (asr (blockB data width r x) 2) (asr (blockG data width r x) 2)
        (asr (blockR data width r x) 2)) := by
  obtain ⟨hb0, hb1⟩ := blockB_range data hbytes width r x
  obtain ⟨hg0, hg1⟩ := blockG_range data hbytes width r x
  obtain ⟨hr0, hr1⟩ := blockR_range data hbytes width r x
  obtain ⟨ab0, ab1⟩ := avg_range hb0 hb1
  obtain ⟨ag0, ag1⟩ := avg_range hg0 hg1
  obtain ⟨ar0, ar1⟩ := avg_range hr0 hr1
  have h := vVal_range ab0 ab1 ag0 ag1 ar0 ar1
  have he : (vOut data width r x : Int) =
      vVal (asr (blockB data width r x) 2) (asr (blockG data width r x) 2)
        (asr (blockR data width r x) 2) :=
    toU8_int_eq (by omega) (by omega)
  refine ⟨?_, ?_, he⟩ <;> omega

/-- An execution trace is the head operation's trace followed by the
rest. -/
theorem execTrace_cons (op : OpCall) (ops : List OpCall) :
    execTrace (op :: ops) = opEvents op ++ execTrace ops := by
  simp [execTrace]

/-- `new`'s trace is lock, `start_capture`, unlock — on success and on
failure alike. -/
theorem opEvents_opNew (res : StartResult) (c : Bool) :
    opEvents (.opNew res c) =
      [Event.lockAcquire, Event.callStart, Event.lockRelease] := by
  unfold opEvents ScreenCaptureX11.new
  rcases h : res.err.isErr <;> simp [h]

/-- Every execution's trace is a sequence of lock-bracketed primitive
calls and unbracketed conversion work. -/
theorem bracketed_execTrace (ops : List OpCall) :
    BracketedTrace (execTrace ops) := by
  induction ops with
  | nil => exact .nil
  | cons op ops ih =>
    rw [execTrace_cons]
    cases op with
    | opNew res c =>
      rw [opEvents_opNew]
      exact .prim Event.callStart rfl _ ih
    | opCapture s o => exact .prim Event.callCapture rfl _ ih
    | opDrop s => exact .prim Event.callStop rfl _ ih
    | opFillYuv => exact .conv _ ih

/-- In a bracketed trace, every primitive call is immediately preceded by
a lock acquisition and immediately followed by a lock release. -/
theorem BracketedTrace.neighbors {t : List Event} (ht : BracketedTrace t) :
    ∀ i e, t[i]? = some e → isPrim e = true →
      1 ≤ i ∧ t[i - 1]? = some Event.lockAcquire ∧
      t[i + 1]? = some Event.lockRelease := by
  induction ht with
  | nil => intro i e h _; simp at h
  | prim p hp t ht ih =>
    intro i e h hprim
    rcases i with _ | (_ | (_ | i))
    · simp at h; subst h; simp [isPrim] at hprim
    · simp at h
      subst h
      exact ⟨le_refl 1, by simp, by simp⟩
    · simp at h; subst h; simp [isPrim] at hprim
    · have h' : t[i]? = some e := by simpa using h
      obtain ⟨h1, h2, h3⟩ := ih i e h' hprim
      rcases i with _ | k
      · omega
      · exact ⟨by omega, by simpa using h2, by simpa using h3⟩
  | conv t ht ih =>
    intro i e h hprim
    rcases i with _ | i
    · simp at h; subst h; simp [isPrim] at hprim
    · have h' : t[i]? = some e := by simpa using h
      obtain ⟨h1, h2, h3⟩ := ih i e h' hprim
      rcases i with _ | k
      · omega
      · exact ⟨by omega, by simpa using h2, by simpa using h3⟩

/-- In a bracketed trace, at every conversion event the lock is free: the
acquisitions and releases before it balance exactly. -/
theorem BracketedTrace.balanced_at_convert {t : List Event}
    (ht : BracketedTrace t) :
    ∀ i, t[i]? = some Event.convert →
      (t.take i).count Event.lockAcquire =
        (t.take i).count Event.lockRelease := by
  induction ht with
  | nil => intro i h; simp at h
  | prim p hp t ht ih =>
    have hpa : p ≠ Event.lockAcquire := by
      cases p <;> simp_all [isPrim]
    have hpr : p ≠ Event.lockRelease := by
      cases p <;> simp_all [isPrim]
    intro i h
    rcases i with _ | (_ | (_ | i))
    · simp at h
    · simp at h; subst h; simp [isPrim] at hp
    · simp at h
    · have h' : t[i]? = some Event.convert := by simpa using h
      have hbal := ih i h'
      simp [List.count_cons, hpa, hpr, hbal]
  | conv t ht ih =>
    intro i h
    rcases i with _ | i
    · simp
    · have h' : t[i]? = some Event.convert := by simpa using h
      have hbal := ih i h'
      simp [List.count_cons, hbal]

/-- In a bracketed trace, the lock is acquired exactly once per primitive
invocation, and released exactly once per primitive invocation. -/
theorem BracketedTrace.counts {t : List Event} (ht : BracketedTrace t) :
    t.count Event.lockAcquire = (t.filter isPrim).length ∧
    t.count Event.lockRelease = (t.filter isPrim).length := by
  induction ht with
  | nil => simp
  | prim p hp t ht ih =>
    have hpa : p ≠ Event.lockAcquire := by
      cases p <;> simp_all [isPrim]
    have hpr : p ≠ Event.lockRelease := by
      cases p <;> simp_all [isPrim]
    obtain ⟨i1, i2⟩ := ih
    have ha : isPrim Event.lockAcquire = false := rfl
    have hb : isPrim Event.lockRelease = false := rfl
    constructor <;>
      simp [List.count_cons, List.filter_cons, hp, ha, hb, hpa, hpr, i1, i2]
  | conv t ht ih =>
    obtain ⟨i1, i2⟩ := ih
    have hc : isPrim Event.convert = false := rfl
    constructor <;>
      simp [List.count_cons, List.filter_cons, hc, i1, i2]

/-- With an effective width of zero, the luma loops write nothing. -/
theorem lumaRows_zero_width {data : List Nat} {width yls : Nat} :
    ∀ {n yy : Nat} {y : List Nat},
      lumaRows data width yls 0 yy n y = some y := by
  intro n
  induction n with
  | zero => intro yy y; simp [lumaRows]
  | succ n ih =>
    intro yy y
    simp only [lumaRows, Option.bind_eq_some]
    exact ⟨y, by simp [lumaRow], ih⟩

/-- With a half width of zero, the chroma loops write nothing. -/
theorem chromaRows_zero_width {data : List Nat} {width uls vls : Nat} :
    ∀ {n yy : Nat} {u v : List Nat},
      chromaRows data width uls vls 0 yy n u v = some (u, v) := by
  intro n
  induction n with
  | zero => intro yy u v; simp [chromaRows]
  | succ n ih =>
    intro yy u v
    simp only [chromaRows, Option.bind_eq_some]
    exact ⟨(u, v), by simp [chromaRow], ih⟩

/-- C1: for a full frame, each luma sample of the truncated region is the
BT.601 luma byte `(((66*r + 129*g + 25*b + 128) >> 8) + 16) as u8` of the
packed pixel at source offset `4 * (width * y + x)` (`b` first, then `g`,
then `r`; alpha ignored). -/
theorem fill_yuv_luma_sample (img : CImage) (y u v y' u' v' : List Nat)
    (yls uls vls x yy : Nat)
    (_hdata : img.data.length = img.width * img.height * 4)
    (hx : x < img.width - img.width % 2)
    (hy : yy < img.height - img.height % 2)
    (hstride : img.width - img.width % 2 ≤ yls)
    (hrun : fill_yuv img y u v yls uls vls = some (y', u', v')) :
    y'[yls * yy + x]? =
      some (toU8 (lumaVal (srcByte img.data (4 * (img.width * yy + x)))
        (srcByte img.data (4 * (img.width * yy + x) + 1))
        (srcByte img.data (4 * (img.width * yy + x) + 2)))) := by
  obtain ⟨hluma, -⟩ := fill_yuv_eq_some_iff.mp hrun
  exact lumaRows_getElem?_written hstride hluma yy x (Nat.zero_le yy)
    (by omega) hx

/-- C2: for a full frame, each chroma sample `(x, y)` of the half grid is
the U/V byte computed from the `>> 2` block averages of the 2×2 source
block whose top-left pixel is `(2x, 2y)` (one source row is `4 * width`
bytes), written at `u[u_stride * y + x]` and `v[v_stride * y + x]`. -/
theorem fill_yuv_chroma_samples (img : CImage) (y u v y' u' v' : List Nat)
    (yls uls vls x yy : Nat)
    (_hdata : img.data.length = img.width * img.height * 4)
    (hx : x < img.width / 2) (hy : yy < img.height / 2)
    (hus : img.width / 2 ≤ uls) (hvs : img.width / 2 ≤ vls)
    (hrun : fill_yuv img y u v yls uls vls = some (y', u', v')) :
    u'[yy * uls + x]? =
      some (toU8 (uVal (asr (blockB img.data img.width yy x) 2)
        (asr (blockG img.data img.width yy x) 2)
        (asr (blockR img.data img.width yy x) 2))) ∧
    v'[yy * vls + x]? =
      some (toU8 (vVal (asr (blockB img.data img.width yy x) 2)
        (asr (blockG img.data img.width yy x) 2)
        (asr (blockR img.data img.width yy x) 2))) ∧
    8 * (yy * img.width + x) = 4 * (img.width * (2 * yy) + 2 * x) := by
  obtain ⟨-, hchroma⟩ := fill_yuv_eq_some_iff.mp hrun
  refine ⟨chromaRows_getElem?_written_u hus hchroma yy x (Nat.zero_le yy)
      (by omega) hx,
    chromaRows_getElem?_written_v hvs hchroma yy x (Nat.zero_le yy)
      (by omega) hx, by ring⟩

/-- C3: under the size preconditions `fill_yuv` succeeds, writes every
luma sample of the truncated-to-even region and every chroma sample of
the half grid, and leaves every other byte of the three planes (padding
between row width and stride, trailing odd row/column) unchanged. -/
theorem fill_yuv_frame_effect (img : CImage) (y u v : List Nat)
    (yls uls vls : Nat)
    (hdata : img.data.length = img.width * img.height * 4)
    (hyls : img.width - img.width % 2 ≤ yls)
    (huls : img.width / 2 ≤ uls) (hvls : img.width / 2 ≤ vls)
    (hylen : (img.height - img.height % 2) * yls ≤ y.length)
    (hulen : img.height / 2 * uls ≤ u.length)
    (hvlen : img.height / 2 * vls ≤ v.length) :
    ∃ y' u' v', fill_yuv img y u v yls uls vls = some (y', u', v') ∧
      y'.length = y.length ∧ u'.length = u.length ∧ v'.length = v.length ∧
      (∀ r x, r < img.height - img.height % 2 →
        x < img.width - img.width % 2 →
        y'[yls * r + x]? = some (lumaOut img.data img.width r x)) ∧
      (∀ r x, r < img.height / 2 → x < img.width / 2 →
        u'[r * uls + x]? = some (uOut img.data img.width r x) ∧
        v'[r * vls + x]? = some (vOut img.data img.width r x)) ∧
      (∀ j, (∀ r x, r < img.height - img.height % 2 →
          x < img.width - img.width % 2 → j ≠ yls * r + x) →
        y'[j]? = y[j]?) ∧
      (∀ j, (∀ r x, r < img.height / 2 → x < img.width / 2 →
          j ≠ r * uls + x) → u'[j]? = u[j]?) ∧
      (∀ j, (∀ r x, r < img.height / 2 → x < img.width / 2 →
          j ≠ r * vls + x) → v'[j]? = v[j]?) := by
  obtain ⟨y', u', v', hrun⟩ :=
    @fill_yuv_isSome_of_bounds img y u v yls uls vls (le_of_eq hdata.symm)
      (fun r x hr hx => by
        have h1 := write_bound_of_stride hr hx hyls hylen
        have e : yls * r = r * yls := by ring
        omega)
      (fun r x hr hx => write_bound_of_stride hr hx huls hulen)
      (fun r x hr hx => write_bound_of_stride hr hx hvls hvlen)
  obtain ⟨hluma, hchroma⟩ := fill_yuv_eq_some_iff.mp hrun
  refine ⟨y', u', v', hrun, lumaRows_length hluma,
    (chromaRows_length hchroma).1, (chromaRows_length hchroma).2,
    ?_, ?_, ?_, ?_, ?_⟩
  · intro r x hr hx
    exact lumaRows_getElem?_written hyls hluma r x (Nat.zero_le r)
      (by omega) hx
  · intro r x hr hx
    exact ⟨chromaRows_getElem?_written_u huls hchroma r x (Nat.zero_le r)
        (by omega) hx,
      chromaRows_getElem?_written_v hvls hchroma r x (Nat.zero_le r)
        (by omega) hx⟩
  · intro j hj
    exact lumaRows_getElem?_of_ne hluma j
      (fun r x h1 h2 hx => hj r x (by omega) hx)
  · intro j hj
    exact chromaRows_getElem?_of_ne_u hchroma j
      (fun r x h1 h2 hx => hj r x (by omega) hx)
  · intro j hj
    exact chromaRows_getElem?_of_ne_v hchroma j
      (fun r x h1 h2 hx => hj r x (by omega) hx)

/-- C4: the three known-value 2×2 scenarios.  All-black gives
`Y = 16, U = V = 128`; all-white gives `Y = 235, U = V = 128`; pure red
(`b = g = 0, r = 255`) gives `Y = 82` (the spec's own formula
`((66*255+128) >> 8) + 16`, quoted there as `≈ 81`), `U = 90`,
`V = 240`. -/
theorem fill_yuv_known_values :
    fill_yuv ⟨List.replicate 16 0, 2, 2⟩ (List.replicate 4 0) [0] [0]
        2 1 1 = some ([16, 16, 16, 16], [128], [128]) ∧
    fill_yuv ⟨List.replicate 16 255, 2, 2⟩ (List.replicate 4 0) [0] [0]
        2 1 1 = some ([235, 235, 235, 235], [128], [128]) ∧
    fill_yuv ⟨[0, 0, 255, 255, 0, 0, 255, 255, 0, 0, 255, 255,
        0, 0, 255, 255], 2, 2⟩ (List.replicate 4 0) [0] [0] 2 1 1 =
      some ([82, 82, 82, 82], [90], [240]) := by
  refine ⟨by decide, by decide, by decide⟩

/-- C5: a failed `capture()` returns nothing to its caller (the return
type carries no error), leaves the session — in particular its frame,
hence `size()` and all later `fill_yuv` results — exactly as it was, and
reports the failure only on the logging channel. -/
theorem capture_failure_nonfatal (s : ScreenCaptureX11)
    (o : CaptureOutcome) (ho : o = CaptureOutcome.failure) :
    (s.capture o).1 = s ∧
    (s.capture o).2.2 = ["Failed to capture screen"] ∧
    ((s.capture o).1).size = s.size ∧
    ∀ y u v yls uls vls,
      fill_yuv ((s.capture o).1).img y u v yls uls vls =
        fill_yuv s.img y u v yls uls vls := by
  subst ho
  exact ⟨rfl, rfl, rfl, fun _ _ _ _ _ _ => rfl⟩

/-- C6: `new` returns `Err` exactly when the start primitive's error slot
is set; otherwise it returns a session wrapping the returned handle whose
frame is `CImage::new()` (null data, width 0, height 0), so `size()` is
`(0, 0)` before the first capture. -/
theorem new_error_iff (res : StartResult) (c : Bool) :
    ((ScreenCaptureX11.new res c).1 = Except.error res.err ↔
      res.err.isErr = true) ∧
    (res.err.isErr = false →
      (ScreenCaptureX11.new res c).1 =
        Except.ok ⟨res.handle, CImage.new, c⟩ ∧
      (ScreenCaptureX11.mk res.handle CImage.new c).size = (0, 0) ∧
      CImage.new.data = [] ∧ CImage.new.width = 0 ∧
      CImage.new.height = 0) := by
  unfold ScreenCaptureX11.new
  rcases h : res.err.isErr <;>
    simp [h, ScreenCaptureX11.size, CImage.new]

/-- C7: in every execution, each invocation of `start_capture`,
`capture_sceen` or `stop_capture` is immediately preceded by one lock
acquisition and immediately followed by one lock release, the total
acquisition and release counts equal the number of primitive invocations,
and at every conversion event the lock is free (acquisitions and releases
before it balance). -/
theorem lock_bracketing (ops : List OpCall) :
    (∀ i e, (execTrace ops)[i]? = some e → isPrim e = true →
      1 ≤ i ∧ (execTrace ops)[i - 1]? = some Event.lockAcquire ∧
      (execTrace ops)[i + 1]? = some Event.lockRelease) ∧
    (∀ i, (execTrace ops)[i]? = some Event.convert →
      ((execTrace ops).take i).count Event.lockAcquire =
        ((execTrace ops).take i).count Event.lockRelease) ∧
    (execTrace ops).count Event.lockAcquire =
      ((execTrace ops).filter isPrim).length ∧
    (execTrace ops).count Event.lockRelease =
      ((execTrace ops).filter isPrim).length := by
  have hb := bracketed_execTrace ops
  exact ⟨hb.neighbors, hb.balanced_at_convert, hb.counts.1, hb.counts.2⟩

/-- C8: on a byte-valued frame, every luma byte `fill_yuv` writes lies in
`16..=235` and every chroma byte in `16..=240`; the narrowing casts are
lossless (the `i32` value equals the stored byte). -/
theorem yuv_output_ranges (img : CImage) (y u v y' u' v' : List Nat)
    (yls uls vls : Nat)
    (hbytes : ∀ b ∈ img.data, b ≤ 255)
    (hyls : img.width - img.width % 2 ≤ yls)
    (huls : img.width / 2 ≤ uls) (hvls : img.width / 2 ≤ vls)
    (hrun : fill_yuv img y u v yls uls vls = some (y', u', v')) :
    (∀ r x,
      ((lumaOut img.data img.width r x : Int) =
        lumaVal (srcByte img.data (4 * (img.width * r + x)))
          (srcByte img.data (4 * (img.width * r + x) + 1))
          (srcByte img.data (4 * (img.width * r + x) + 2))) ∧
      ((uOut img.data img.width r x : Int) =
        uVal (asr (blockB img.data img.width r x) 2)
          (asr (blockG img.data img.width r x) 2)
          (asr (blockR img.data img.width r x) 2)) ∧
      ((vOut img.data img.width r x : Int) =
        vVal (asr (blockB img.data img.width r x) 2)
          (asr (blockG img.data img.width r x) 2)
          (asr (blockR img.data img.width r x) 2))) ∧
    (∀ r x, r < img.height - img.height % 2 →
      x < img.width - img.width % 2 →
      ∃ w, y'[yls * r + x]? = some w ∧ 16 ≤ w ∧ w ≤ 235) ∧
    (∀ r x, r < img.height / 2 → x < img.width / 2 →
      (∃ w, u'[r * uls + x]? = some w ∧ 16 ≤ w ∧ w ≤ 240) ∧
      (∃ w, v'[r * vls + x]? = some w ∧ 16 ≤ w ∧ w ≤ 240)) := by
  obtain ⟨hluma, hchroma⟩ := fill_yuv_eq_some_iff.mp hrun
  refine ⟨?_, ?_, ?_⟩
  · intro r x
    exact ⟨(lumaOut_range img.data hbytes img.width r x).2.2,
      (uOut_range img.data hbytes img.width r x).2.2,
      (vOut_range img.data hbytes img.width r x).2.2⟩
  · intro r x hr hx
    exact ⟨lumaOut img.data img.width r x,
      lumaRows_getElem?_written hyls hluma r x (Nat.zero_le r)
        (by omega) hx,
      (lumaOut_range img.data hbytes img.width r x).1,
      (lumaOut_range img.data hbytes img.width r x).2.1⟩
  · intro r x hr hx
    exact ⟨⟨uOut img.data img.width r x,
        chromaRows_getElem?_written_u huls hchroma r x (Nat.zero_le r)
          (by omega) hx,
        (uOut_range img.data hbytes img.width r x).1,
        (uOut_range img.data hbytes img.width r x).2.1⟩,
      ⟨vOut img.data img.width r x,
        chromaRows_getElem?_written_v hvls hchroma r x (Nat.zero_le r)
          (by omega) hx,
        (vOut_range img.data hbytes img.width r x).1,
        (vOut_range img.data hbytes img.width r x).2.1⟩⟩

/-- C9: with a full source frame and plane lengths covering the last
written index of each plane (with strides at least each row's width),
every index `fill_yuv` uses is in bounds and the call succeeds — it never
panics. -/
theorem fill_yuv_no_panic (img : CImage) (y u v : List Nat)
    (yls uls vls : Nat)
    (hdata : img.width * img.height * 4 ≤ img.data.length)
    (hluma : 2 ≤ img.height →
      img.width - img.width % 2 ≤ yls ∧
      yls * (img.height - img.height % 2 - 1) +
        (img.width - img.width % 2) ≤ y.length)
    (hchroma : 2 ≤ img.height → 2 ≤ img.width →
      img.width / 2 ≤ uls ∧ img.width / 2 ≤ vls ∧
      (img.height / 2 - 1) * uls + img.width / 2 ≤ u.length ∧
      (img.height / 2 - 1) * vls + img.width / 2 ≤ v.length) :
    (fill_yuv img y u v yls uls vls).isSome := by
  obtain ⟨y', u', v', hrun⟩ :=
    @fill_yuv_isSome_of_bounds img y u v yls uls vls hdata
      (fun r x hr hx => by
        obtain ⟨-, hylen⟩ := hluma (by omega)
        have h1 : yls * r ≤ yls * (img.height - img.height % 2 - 1) :=
          Nat.mul_le_mul (le_refl yls) (by omega)
        omega)
      (fun r x hr hx => by
        obtain ⟨-, -, hulen, -⟩ := hchroma (by omega) (by omega)
        have h1 : r * uls ≤ (img.height / 2 - 1) * uls :=
          Nat.mul_le_mul (by omega) (le_refl uls)
        omega)
      (fun r x hr hx => by
        obtain ⟨-, -, -, hvlen⟩ := hchroma (by omega) (by omega)
        have h1 : r * vls ≤ (img.height / 2 - 1) * vls :=
          Nat.mul_le_mul (by omega) (le_refl vls)
        omega)
  rw [hrun]
  rfl

/-- C10: for a frame with `width < 2` or `height < 2` — including the
never-captured `CImage::new()` state — no loop body runs: `fill_yuv`
succeeds and returns all three planes unchanged. -/
theorem fill_yuv_small_frame_noop (img : CImage) (y u v : List Nat)
    (yls uls vls : Nat) (h : img.width < 2 ∨ img.height < 2) :
    fill_yuv img y u v yls uls vls = some (y, u, v) := by
  rcases Nat.lt_or_ge img.width 2 with hw | hw
  · have e1 : img.width - img.width % 2 = 0 := by omega
    have e2 : img.width / 2 = 0 := by omega
    apply fill_yuv_eq_some_iff.mpr
    rw [e1, e2]
    exact ⟨lumaRows_zero_width, chromaRows_zero_width⟩
  · have hh : img.height < 2 := by
      rcases h with h | h
      · omega
      · exact h
    have e1 : img.height - img.height % 2 = 0 := by omega
    have e2 : img.height / 2 = 0 := by omega
    apply fill_yuv_eq_some_iff.mpr
    rw [e1, e2]
    exact ⟨by simp [lumaRows], by simp [chromaRows]⟩

/-- Witness for C1 on a concrete 2×2 frame with bytes `0..15`. -/
theorem fill_yuv_luma_sample_witness :
    ([17, 20, 24, 27] : List Nat)[2 * 1 + 1]? =
      some (toU8 (lumaVal (srcByte (List.range 16) (4 * (2 * 1 + 1)))
        (srcByte (List.range 16) (4 * (2 * 1 + 1) + 1))
        (srcByte (List.range 16) (4 * (2 * 1 + 1) + 2)))) :=
  fill_yuv_luma_sample ⟨List.range 16, 2, 2⟩ [9, 9, 9, 9] [9] [9]
    [17, 20, 24, 27] [127] [129] 2 1 1 1 1 (by decide) (by decide)
    (by decide) (by decide) (by decide)

/-- Witness for C2 on the same concrete frame. -/
theorem fill_yuv_chroma_samples_witness :
    ([127] : List Nat)[0 * 1 + 0]? =
      some (toU8 (uVal (asr (blockB (List.range 16) 2 0 0) 2)
        (asr (blockG (List.range 16) 2 0 0) 2)
        (asr (blockR (List.range 16) 2 0 0) 2))) ∧
    ([129] : List Nat)[0 * 1 + 0]? =
      some (toU8 (vVal (asr (blockB (List.range 16) 2 0 0) 2)
        (asr (blockG (List.range 16) 2 0 0) 2)
        (asr (blockR (List.range 16) 2 0 0) 2))) ∧
    8 * (0 * 2 + 0) = 4 * (2 * (2 * 0) + 2 * 0) :=
  fill_yuv_chroma_samples ⟨List.range 16, 2, 2⟩ [9, 9, 9, 9] [9] [9]
    [17, 20, 24, 27] [127] [129] 2 1 1 0 0 (by decide) (by decide)
    (by decide) (by decide) (by decide) (by decide)

/-- Witness for C3 on the same concrete frame. -/
theorem fill_yuv_frame_effect_witness :
    ([17, 20, 24, 27] : List Nat)[2 * 1 + 1]? =
      some (lumaOut (List.range 16) 2 1 1) ∧
    ([127] : List Nat)[0 * 1 + 0]? = some (uOut (List.range 16) 2 0 0) ∧
    ([129] : List Nat)[0 * 1 + 0]? = some (vOut (List.range 16) 2 0 0) ∧
    ([17, 20, 24, 27] : List Nat).length = 4 := by
  obtain ⟨y', u', v', hrun, hly, hlu, hlv, hwy, hwc, hfy, hfu, hfv⟩ :=
    fill_yuv_frame_effect ⟨List.range 16, 2, 2⟩ [9, 9, 9, 9] [9] [9] 2 1 1
      (by decide) (by decide) (by decide) (by decide) (by decide)
      (by decide) (by decide)
  have he : fill_yuv (⟨List.range 16, 2, 2⟩ : CImage) [9, 9, 9, 9] [9] [9]
      2 1 1 = some ([17, 20, 24, 27], [127], [129]) := by decide
  rw [he] at hrun
  injection hrun with h3
  rw [Prod.mk.injEq, Prod.mk.injEq] at h3
  obtain ⟨h4, h5, h6⟩ := h3
  subst h4; subst h5; subst h6
  exact ⟨hwy 1 1 (by decide) (by decide),
    (hwc 0 0 (by decide) (by decide)).1,
    (hwc 0 0 (by decide) (by decide)).2, hly⟩

/-- Witness for C5 on a concrete session with a 1×1 frame. -/
theorem capture_failure_nonfatal_witness :
    (ScreenCaptureX11.capture ⟨3, ⟨[1, 2, 3, 4], 1, 1⟩, true⟩
      CaptureOutcome.failure).1 = ⟨3, ⟨[1, 2, 3, 4], 1, 1⟩, true⟩ ∧
    (ScreenCaptureX11.capture ⟨3, ⟨[1, 2, 3, 4], 1, 1⟩, true⟩
      CaptureOutcome.failure).2.2 = ["Failed to capture screen"] ∧
    ((ScreenCaptureX11.capture ⟨3, ⟨[1, 2, 3, 4], 1, 1⟩, true⟩
      CaptureOutcome.failure).1).size = (1, 1) ∧
    fill_yuv ((ScreenCaptureX11.capture ⟨3, ⟨[1, 2, 3, 4], 1, 1⟩, true⟩
        CaptureOutcome.failure).1).img [0] [0] [0] 1 1 1 =
      fill_yuv (⟨[1, 2, 3, 4], 1, 1⟩ : CImage) [0] [0] [0] 1 1 1 := by
  have h := capture_failure_nonfatal ⟨3, ⟨[1, 2, 3, 4], 1, 1⟩, true⟩
    CaptureOutcome.failure rfl
  exact ⟨h.1, h.2.1, h.2.2.1, h.2.2.2 [0] [0] [0] 1 1 1⟩

/-- Witness for C6 in both the success and the failure case. -/
theorem new_error_iff_witness :
    (ScreenCaptureX11.new ⟨7, CError.new⟩ false).1 =
      Except.ok ⟨7, CImage.new, false⟩ ∧
    (ScreenCaptureX11.mk 7 CImage.new false).size = (0, 0) ∧
    (ScreenCaptureX11.new ⟨7, ⟨true⟩⟩ true).1 = Except.error ⟨true⟩ := by
  have h1 := new_error_iff ⟨7, CError.new⟩ false
  have h2 := new_error_iff ⟨7, ⟨true⟩⟩ true
  exact ⟨(h1.2 rfl).1, (h1.2 rfl).2.1, h2.1.mpr rfl⟩

/-- Witness for C7 on a concrete execution:
`fill_yuv` then `new`, giving the trace
`[convert, lockAcquire, callStart, lockRelease]`. -/
theorem lock_bracketing_witness :
    (1 ≤ 2 ∧
      (execTrace [OpCall.opFillYuv,
        OpCall.opNew ⟨5, CError.new⟩ true])[2 - 1]? =
        some Event.lockAcquire ∧
      (execTrace [OpCall.opFillYuv,
        OpCall.opNew ⟨5, CError.new⟩ true])[2 + 1]? =
        some Event.lockRelease) ∧
    ((execTrace [OpCall.opFillYuv,
        OpCall.opNew ⟨5, CError.new⟩ true]).take 0).count
        Event.lockAcquire =
      ((execTrace [OpCall.opFillYuv,
        OpCall.opNew ⟨5, CError.new⟩ true]).take 0).count
        Event.lockRelease := by
  have h := lock_bracketing [OpCall.opFillYuv,
    OpCall.opNew ⟨5, CError.new⟩ true]
  exact ⟨h.1 2 Event.callStart (by decide) (by decide),
    h.2.1 0 (by decide)⟩

/-- Witness for C8 on the concrete 2×2 frame with bytes `0..15`. -/
theorem yuv_output_ranges_witness :
    ((lumaOut (List.range 16) 2 1 1 : Int) =
      lumaVal (srcByte (List.range 16) (4 * (2 * 1 + 1)))
        (srcByte (List.range 16) (4 * (2 * 1 + 1) + 1))
        (srcByte (List.range 16) (4 * (2 * 1 + 1) + 2))) ∧
    ([17, 20, 24, 27] : List Nat)[2 * 1 + 1]? = some 27 ∧
    16 ≤ (27 : Nat) ∧ (27 : Nat) ≤ 235 ∧
    ([127] : List Nat)[0 * 1 + 0]? = some 127 ∧
    16 ≤ (127 : Nat) ∧ (127 : Nat) ≤ 240 := by
  obtain ⟨hint, hy8, hc8⟩ :=
    yuv_output_ranges ⟨List.range 16, 2, 2⟩ [9, 9, 9, 9] [9] [9]
      [17, 20, 24, 27] [127] [129] 2 1 1 (by decide) (by decide)
      (by decide) (by decide) (by decide)
  obtain ⟨w, hw, hw1, hw2⟩ := hy8 1 1 (by decide) (by decide)
  have hwv : w = 27 := by
    have hd : ([17, 20, 24, 27] : List Nat)[2 * 1 + 1]? = some 27 := by
      decide
    rw [hw] at hd
    exact (Option.some.inj hd)
  subst hwv
  obtain ⟨⟨w2, hu, hu1, hu2⟩, -⟩ := hc8 0 0 (by decide) (by decide)
  have hw2v : w2 = 127 := by
    have hd : ([127] : List Nat)[0 * 1 + 0]? = some 127 := by decide
    rw [hu] at hd
    exact (Option.some.inj hd)
  subst hw2v
  exact ⟨(hint 1 1).1, hw, hw1, hw2, hu, hu1, hu2⟩

/-- Witness for C9 on the concrete 2×2 frame. -/
theorem fill_yuv_no_panic_witness :
    (fill_yuv ⟨List.range 16, 2, 2⟩ [9, 9, 9, 9] [9] [9] 2 1 1).isSome :=
  fill_yuv_no_panic ⟨List.range 16, 2, 2⟩ [9, 9, 9, 9] [9] [9] 2 1 1
    (by decide) (by decide) (by decide)

/-- Witness for C10 on the never-captured empty frame. -/
theorem fill_yuv_small_frame_noop_witness :
    fill_yuv ⟨[], 0, 0⟩ [5] [6] [7] 3 2 1 = some ([5], [6], [7]) :=
  fill_yuv_small_frame_noop ⟨[], 0, 0⟩ [5] [6] [7] 3 2 1
    (Or.inl (by decide))
